import Mathlib

/-!
Verification development for the tree-grepper extraction pipeline.

The definitions below are a shallow embedding of the program's source:

  * src/language.rs   — the Language enum, its FromStr / Display impls
  * src/extractor.rs  — Extractor::new, extract_from_text, the lines
                        Display impl and serialize_point
  * src/cli.rs        — Invocation::extractors (the query combiner) and
                        the -A, -B, -C context resolution
  * src/main.rs       — do_query's collection step, the json and
                        json-lines output formats, show_languages

Strings that flow to the output are modelled as byte lists (List Nat,
each entry < 256), matching Rust's UTF-8 string representation; this
lets invalid-UTF-8 capture text and byte-exact output formats be stated
faithfully.  The tree-sitter engine itself is external to the repository;
it is modelled at its documented boundary: a compiled query is a list of
patterns with capture names and general predicates, and a query cursor
yields captures whose indices point into the query's capture-name table,
omitting captures that have been disabled with disable_capture.
-/

namespace TreeGrepper

/-! ## Language registry (src/language.rs) -/

/-- The closed set of supported languages, from the include_langs!
invocation in src/language.rs. -/
inductive Language where
  | Cpp
  | Rust
  | C
  | Python
  | JavaScript
  | Lua
  | Markdown
  | Go
deriving DecidableEq

/-- Language::all from src/language.rs: the variants in declaration order. -/
def Language.all : List Language :=
  [.Cpp, .Rust, .C, .Python, .JavaScript, .Lua, .Markdown, .Go]

/-- The Display impl in src/language.rs writes the lower-cased variant
identifier: stringify!([<lang:lower>]). -/
def Language.display : Language → String
  | .Cpp => "cpp"
  | .Rust => "rust"
  | .C => "c"
  | .Python => "python"
  | .JavaScript => "javascript"
  | .Lua => "lua"
  | .Markdown => "markdown"
  | .Go => "go"

/-- Language::name_for_types_builder from src/language.rs: the literal
name attached to each variant in the include_langs! invocation. -/
def Language.name_for_types_builder : Language → String
  | .Cpp => "cpp"
  | .Rust => "rust"
  | .C => "c"
  | .Python => "py"
  | .JavaScript => "js"
  | .Lua => "lua"
  | .Markdown => "md"
  | .Go => "go"

/-- The FromStr impl in src/language.rs: matches the literal names of the
include_langs! invocation (the same literals name_for_types_builder
returns), and otherwise fails with a message listing Display names. -/
def Language.from_str (s : String) : Except String Language :=
  match s with
  | "cpp" => .ok .Cpp
  | "rust" => .ok .Rust
  | "c" => .ok .C
  | "py" => .ok .Python
  | "js" => .ok .JavaScript
  | "lua" => .ok .Lua
  | "md" => .ok .Markdown
  | "go" => .ok .Go
  | _ => .error ("unknown language " ++ s ++ ". Try one of: "
      ++ String.intercalate ", " (Language.all.map Language.display))

/-- show_languages in src/main.rs is a TODO stub: it writes nothing to
the output and returns Ok(()).  This is the byte sequence it writes. -/
def show_languages_output : List Nat := []

/-! ## Byte-level text utilities

Output strings are modelled as UTF-8 byte lists, matching Rust's String
representation.  natBytes models the Display impl for unsigned integers
(decimal ASCII digits); strBytes models the UTF-8 bytes of a string
literal; utf8Valid models the validity check of str::from_utf8, which
backs tree-sitter's Node::utf8_text. -/

/-- ASCII digit byte for a value below 10. -/
def digitByte (d : Nat) : Nat := 48 + d

/-- Fuel-indexed decimal digit accumulation (fuel bounds the recursion;
natBytes supplies enough). -/
def natBytesAux : Nat → Nat → List Nat → List Nat
  | 0, _, acc => acc
  | fuel + 1, n, acc =>
    if n < 10 then digitByte n :: acc
    else natBytesAux fuel (n / 10) (digitByte (n % 10) :: acc)

/-- Decimal ASCII rendering of a Nat, as Rust's Display for integers. -/
def natBytes (n : Nat) : List Nat := natBytesAux (n + 1) n []

/-- UTF-8 encoding of one Unicode scalar value. -/
def charUtf8Bytes (c : Char) : List Nat :=
  let n := c.toNat
  if n < 0x80 then [n]
  else if n < 0x800 then [0xC0 + n / 64, 0x80 + n % 64]
  else if n < 0x10000 then
    [0xE0 + n / 4096, 0x80 + (n / 64) % 64, 0x80 + n % 64]
  else
    [0xF0 + n / 0x40000, 0x80 + (n / 4096) % 64, 0x80 + (n / 64) % 64,
      0x80 + n % 64]

/-- UTF-8 bytes of a string, as stored by a Rust String. -/
def strBytes (s : String) : List Nat := s.data.flatMap charUtf8Bytes

/-- The starts_with underscore-marker test of Extractor::new, on the
string's character list: does the first character exist and equal the
underscore? -/
def startsWithUnderscore (s : String) : Bool :=
  match s.data with
  | [] => false
  | c :: _ => c = '_'

instance {e a : Type} [DecidableEq e] [DecidableEq a] :
    DecidableEq (Except e a) := by
  intro x y
  cases x <;> cases y
  case error.error e1 e2 =>
    exact decidable_of_iff (e1 = e2) (by constructor <;> intro h <;> simp_all)
  case ok.ok a1 a2 =>
    exact decidable_of_iff (a1 = a2) (by constructor <;> intro h <;> simp_all)
  all_goals exact isFalse (by intro h; cases h)

/-- Is this byte a UTF-8 continuation byte (10xxxxxx)? -/
def isCont (b : Nat) : Bool := 0x80 ≤ b && b < 0xC0

/-- Validity check of a byte list as UTF-8, following the table used by
str::from_utf8 (shortest-form encodings only, no surrogates, max
U+10FFFF).  tree-sitter's Node::utf8_text fails exactly when the node's
byte range fails this check. -/
def utf8Valid : List Nat → Bool
  | [] => true
  | b :: rest =>
    if b < 0x80 then utf8Valid rest
    else if b < 0xC2 then false
    else if b < 0xE0 then
      match rest with
      | b2 :: rest2 => isCont b2 && utf8Valid rest2
      | [] => false
    else if b < 0xF0 then
      match rest with
      | b2 :: b3 :: rest3 =>
        (if b = 0xE0 then decide (0xA0 ≤ b2) && decide (b2 < 0xC0)
         else if b = 0xED then decide (0x80 ≤ b2) && decide (b2 < 0xA0)
         else isCont b2)
          && isCont b3 && utf8Valid rest3
      | _ => false
    else if b < 0xF5 then
      match rest with
      | b2 :: b3 :: b4 :: rest4 =>
        (if b = 0xF0 then decide (0x90 ≤ b2) && decide (b2 < 0xC0)
         else if b = 0xF4 then decide (0x80 ≤ b2) && decide (b2 < 0x90)
         else isCont b2)
          && isCont b3 && isCont b4 && utf8Valid rest4
      | _ => false
    else false

/-! ## Engine boundary model

The tree-sitter engine is external to this repository.  It is modelled
at its documented interface (spec section 6): a query text is a sequence
of top-level patterns; compiling it yields the ordered capture-name
table and, per pattern, the general predicates attached to it;
concatenating two query texts concatenates their pattern lists (the OR
trick in src/cli.rs); appending a capture token to a query text attaches
that capture to the final pattern; a compiled query can have captures
disabled by name, and the cursor then omits those captures from every
match it yields. -/

/-- A tree-sitter point: zero-indexed row and column. -/
structure Point where
  row : Nat
  column : Nat
deriving DecidableEq

/-- The part of a tree-sitter node extract_from_text consumes: its kind,
the source bytes of its range, and its start and end positions. -/
structure Node where
  kind : String
  bytes : List Nat
  startPos : Point
  endPos : Point
deriving DecidableEq

/-- One capture yielded by the query cursor: a capture-table index and
the captured node. -/
structure Capture where
  index : Nat
  node : Node
deriving DecidableEq

/-- One top-level pattern of a query text: its node kind, the capture
names attached inside it (in textual order), and the general predicates
attached to it. -/
structure PatternSrc where
  node : String
  captures : List String
  preds : List String
deriving DecidableEq

/-- A query text, seen as its sequence of top-level patterns. -/
abbrev QueryText : Type := List PatternSrc

/-- A compiled tree-sitter query: its patterns, the capture-name table
(Query::capture_names, first occurrence order, no duplicates), and the
set of names disabled so far with Query::disable_capture. -/
structure TSQuery where
  patterns : List PatternSrc
  captureNames : List String
  disabled : List String
deriving DecidableEq

/-- Query::disable_capture: further matches omit captures of this name. -/
def TSQuery.disable_capture (q : TSQuery) (name : String) : TSQuery :=
  { q with disabled := q.disabled ++ [name] }

/-- Engine compilation of a query text (Query::new behind
Language.parse_query): succeeds iff every pattern names a node kind the
language's grammar knows, and records the deduplicated capture-name
table.  nodeKinds is the grammar's node-kind table, a fixed property of
the vendored grammar for each language. -/
def parse_query (nodeKinds : Language → List String) (lang : Language)
    (qt : QueryText) : Except String TSQuery :=
  if qt.all (fun p => (nodeKinds lang).contains p.node) then
    .ok { patterns := qt
          captureNames := (qt.flatMap PatternSrc.captures).dedup
          disabled := [] }
  else
    .error "Query error: Invalid node type"

/-- The query cursor's per-match capture stream, restricted to what
extract_from_text consumes: from the raw captures the engine would
report for this tree, it omits every capture whose name has been
disabled (the documented effect of Query::disable_capture). -/
def survivingCaptures (q : TSQuery) (raw : List Capture) : List Capture :=
  raw.filter (fun c => !(q.disabled.contains (q.captureNames.getD c.index "")))

/-! ## Extractor (src/extractor.rs) -/

/-- The Extractor struct: a language, its compiled query (with helper
captures disabled), and the capture-name table copied before disabling. -/
structure Extractor where
  language : Language
  query : TSQuery
  captures : List String
deriving DecidableEq

/-- The for_each loop body of Extractor::new over the copied capture
names: disable every capture whose name starts with an underscore. -/
def disableFold (names : List String) (q : TSQuery) : TSQuery :=
  names.foldl
    (fun q name => if startsWithUnderscore name then q.disable_capture name else q)
    q

/-- Extractor::new from src/extractor.rs: copy the capture names, then
disable every capture whose name starts with an underscore. -/
def Extractor.new (language : Language) (query : TSQuery) : Extractor :=
  let captures := query.captureNames
  { language := language, query := disableFold captures query
    captures := captures }

/-- One extracted match, as in src/extractor.rs (the end field of the
source is called endPos here because end is a Lean keyword). -/
structure ExtractedMatch where
  kind : String
  name : String
  text : List Nat
  start : Point
  endPos : Point
deriving DecidableEq

/-- One extracted file: optional path (as its UTF-8 bytes), display-only
file type tag, and the matches in engine order. -/
structure ExtractedFile where
  file : Option (List Nat)
  file_type : List Nat
  «matches» : List ExtractedMatch
deriving DecidableEq

/-- The per-capture body of the map in extract_from_text: look the name
up by index in the copied capture table, decode the node's text as UTF-8
(failing the whole capture on invalid bytes), and build the match
record. -/
def extractMatchOf (captures : List String) (c : Capture) :
    Except String ExtractedMatch :=
  let name := captures.getD c.index ""
  if utf8Valid c.node.bytes then
    .ok { kind := c.node.kind
          name := name
          text := c.node.bytes
          start := c.node.startPos
          endPos := c.node.endPos }
  else
    .error "could not extract text from capture"

/-- Extractor::extract_from_text from src/extractor.rs, after the parse
step: the engine's capture stream for the parsed tree (raw, minus
disabled captures) is mapped through extractMatchOf, collecting into a
Result so the first error fails the whole file; an empty result list
yields Ok(None), otherwise Ok(Some(ExtractedFile)). -/
def Extractor.extract_from_text (ex : Extractor) (path : Option (List Nat))
    (raw : List Capture) : Except String (Option ExtractedFile) :=
  match (survivingCaptures ex.query raw).mapM (extractMatchOf ex.captures) with
  | .error e => .error e
  | .ok extracted_matches =>
    if extracted_matches.isEmpty then
      .ok none
    else
      .ok (some { file := path
                  file_type := strBytes ex.language.name_for_types_builder
                  «matches» := extracted_matches })

/-! ## Lines format (impl Display for ExtractedFile, src/extractor.rs) -/

/-- The filename prefix used by the Display impl: the path's bytes, or
the literal NO FILE when the path is absent. -/
def ExtractedFile.filename (f : ExtractedFile) : List Nat :=
  f.file.getD (strBytes "NO FILE")

/-- One output line of the lines format:
filename:row:column:name:text followed by a newline, with row and column
presented as start.row + 1 and start.column + 1. -/
def displayLine (filename : List Nat) (m : ExtractedMatch) : List Nat :=
  filename ++ 58 :: natBytes (m.start.row + 1)
    ++ 58 :: natBytes (m.start.column + 1)
    ++ 58 :: strBytes m.name
    ++ 58 :: m.text ++ [10]

/-- The Display impl for ExtractedFile: one displayLine per match. -/
def ExtractedFile.display (f : ExtractedFile) : List Nat :=
  f.«matches».flatMap (displayLine f.filename)

/-! ## JSON output (serde derives in src/extractor.rs, formats in
src/main.rs) -/

/-- serialize_point from src/extractor.rs: a two-field struct whose row
and column fields carry the stored value plus one. -/
def serialize_point (p : Point) : List (String × Nat) :=
  [("row", p.row + 1), ("column", p.column + 1)]

/-- serde_json string escaping for one byte: backslash escapes for
quote, backslash and the named control characters, a u00XX escape for
the other control bytes, and everything else verbatim. -/
def escapeByte (b : Nat) : List Nat :=
  if b = 34 then [92, 34]
  else if b = 92 then [92, 92]
  else if b = 8 then [92, 98]
  else if b = 9 then [92, 116]
  else if b = 10 then [92, 110]
  else if b = 12 then [92, 102]
  else if b = 13 then [92, 114]
  else if b < 32 then
    [92, 117, 48, 48, digitByte (b / 16),
      if b % 16 < 10 then digitByte (b % 16) else 87 + b % 16]
  else [b]

/-- A JSON string token: quote, escaped content bytes, quote. -/
def renderStrBytes (bs : List Nat) : List Nat :=
  34 :: bs.flatMap escapeByte ++ [34]

/-- Comma-style separator join, as serde_json writes sequence and map
elements: empty for no elements, and the separator between adjacent
elements otherwise. -/
def joinSep (sep : List Nat) : List (List Nat) → List Nat
  | [] => []
  | [x] => x
  | x :: y :: rest => x ++ sep ++ joinSep sep (y :: rest)

/-- A JSON object rendered from serialize_point's field list. -/
def renderPointFields (fields : List (String × Nat)) : List Nat :=
  123 :: joinSep [44]
    (fields.map (fun kv => renderStrBytes (strBytes kv.1) ++ 58 :: natBytes kv.2))
    ++ [125]

/-- serde_json rendering of one Point through serialize_point. -/
def renderPoint (p : Point) : List Nat :=
  renderPointFields (serialize_point p)

/-- serde_json rendering of one ExtractedMatch (derived Serialize:
fields in declaration order kind, name, text, start, end). -/
def renderMatch (m : ExtractedMatch) : List Nat :=
  123 :: renderStrBytes (strBytes "kind") ++ 58 :: renderStrBytes (strBytes m.kind)
    ++ 44 :: renderStrBytes (strBytes "name") ++ 58 :: renderStrBytes (strBytes m.name)
    ++ 44 :: renderStrBytes (strBytes "text") ++ 58 :: renderStrBytes m.text
    ++ 44 :: renderStrBytes (strBytes "start") ++ 58 :: renderPoint m.start
    ++ 44 :: renderStrBytes (strBytes "end") ++ 58 :: renderPoint m.endPos
    ++ [125]

/-- serde_json rendering of one ExtractedFile (derived Serialize:
fields file, file_type, matches; an absent path serializes as null). -/
def renderFile (f : ExtractedFile) : List Nat :=
  123 :: renderStrBytes (strBytes "file")
      ++ 58 :: (match f.file with
                | none => [110, 117, 108, 108]
                | some p => renderStrBytes p)
    ++ 44 :: renderStrBytes (strBytes "file_type") ++ 58 :: renderStrBytes f.file_type
    ++ 44 :: renderStrBytes (strBytes "matches")
      ++ 58 :: (91 :: joinSep [44] (f.«matches».map renderMatch) ++ [93])
    ++ [125]

/-- The json format of src/main.rs: serde_json::to_writer of the whole
Vec<ExtractedFile>, i.e. one JSON array of the per-file records. -/
def jsonOutput (fs : List ExtractedFile) : List Nat :=
  91 :: joinSep [44] (fs.map renderFile) ++ [93]

/-- The json-lines format of src/main.rs: writeln of
serde_json::to_string of each ExtractedFile in order. -/
def jsonLinesOutput (fs : List ExtractedFile) : List Nat :=
  fs.flatMap (fun f => renderFile f ++ [10])

/-! ## Collection step of do_query (src/main.rs) -/

/-- The filter_map plus collect step of do_query: Ok(None) entries are
dropped, Ok(Some) entries are kept in order, and the first error fails
the whole collection. -/
def collectResults {E F : Type} : List (Except E (Option F)) → Except E (List F)
  | [] => .ok []
  | .ok none :: rest => collectResults rest
  | .ok (some f) :: rest => (collectResults rest).map (fun fs => f :: fs)
  | .error e :: _ => .error e

/-! ## Query combiner (Invocation::extractors, src/cli.rs) -/

/-- Appending the literal query-capture token to a query text: in
tree-sitter query syntax a capture token after a pattern attaches to the
preceding (here: final) pattern.  On the empty query text the program's
push_str instead produces the bare capture token, a text the composite
parse rejects (a capture with no preceding pattern); that dangling token
has no pattern-level representation, so this definition leaves the empty
text unchanged and every theorem about the combiner excludes the empty
query text by hypothesis — there the program reaches a further
configuration-error path that this embedding does not model. -/
def appendQueryCapture : QueryText → QueryText
  | [] => []
  | [p] => [{ p with captures := p.captures ++ ["query"] }]
  | p :: q :: rest => p :: appendQueryCapture (q :: rest)

/-- The per-language running query strings (the HashMap of
Invocation::extractors, modelled as an insertion-ordered association
list): merging appends the new query text to an existing entry for the
language, or adds a new entry at the end. -/
def insertMerge (m : List (Language × QueryText)) (lang : Language)
    (qt : QueryText) : List (Language × QueryText) :=
  match m with
  | [] => [(lang, qt)]
  | (l, q) :: rest =>
    if l = lang then (l, q ++ qt) :: rest
    else (l, q) :: insertMerge rest lang qt

/-- The first loop of Invocation::extractors: resolve each pair's
language, parse its query text in isolation (for validation and
capture-name detection only), append the synthetic query capture when
the isolated parse found no capture names, and merge the resulting text
into the per-language running string. -/
def buildQueryStrings (nk : Language → List String) :
    List (String × QueryText) → List (Language × QueryText) →
    Except String (List (Language × QueryText))
  | [], acc => .ok acc
  | (raw_lang, raw_query) :: rest, acc =>
    match Language.from_str raw_lang with
    | .error _ => .error "could not parse language"
    | .ok lang =>
      match parse_query nk lang raw_query with
      | .error _ => .error "could not parse query"
      | .ok temp_query =>
        let query_out :=
          if temp_query.captureNames.isEmpty then appendQueryCapture raw_query
          else raw_query
        buildQueryStrings nk rest (insertMerge acc lang query_out)

/-- The predicate scan of Invocation::extractors: the operator of the
first general predicate of the first pattern that has one, if any. -/
def first_general_predicate (q : TSQuery) : Option String :=
  (q.patterns.find? (fun p => !p.preds.isEmpty)).map (fun p => p.preds.getD 0 "")

/-- The second loop of Invocation::extractors: parse each per-language
combined query text, reject it if any pattern carries a general
predicate, and otherwise build the Extractor.  (The Rust HashMap
iterates in unspecified order; the insertion order used here is one
such order, and none of the stated properties depend on it.) -/
def extractors (nk : Language → List String)
    (pairs : List (String × QueryText)) : Except String (List Extractor) :=
  match buildQueryStrings nk pairs [] with
  | .error e => .error e
  | .ok query_strings =>
    query_strings.mapM (fun lq =>
      match parse_query nk lq.1 lq.2 with
      | .error _ => .error "could not parse combined query"
      | .ok query =>
        match first_general_predicate query with
        | some op => .error ("Unknown predicate " ++ op)
        | none => .ok (Extractor.new lq.1 query))

/-! ## Context flags (Invocation::from_args, src/cli.rs) -/

/-- The after_lines computation of Invocation::from_args: the value of
the specific -A flag, or else the value of -C, or else 0 (flag values
are modelled after their parse step, as numbers). -/
def after_lines (after context : Option Nat) : Nat :=
  ((after.orElse (fun _ => context)).map (fun n => n)).getD 0

/-- The before_lines computation of Invocation::from_args, same shape
with the -B flag. -/
def before_lines (before context : Option Nat) : Nat :=
  ((before.orElse (fun _ => context)).map (fun n => n)).getD 0

/-! ## Presentation-level helpers for the position claims -/

/-- One-indexed presentation of a stored zero-indexed point. -/
def presentedPoint (p : Point) : Point := ⟨p.row + 1, p.column + 1⟩

/-- A lines-format line printing an already-presented point verbatim:
filename:row:column:name:text plus newline. -/
def lineWithPoint (filename : List Nat) (q : Point) (name : String)
    (text : List Nat) : List Nat :=
  filename ++ 58 :: natBytes q.row ++ 58 :: natBytes q.column
    ++ 58 :: strBytes name ++ 58 :: text ++ [10]

/-! ## Claim theorems -/

/-- C1: the claimed round trip resolve(displayName(id)) == id fails on
the code at Language.Python: Display writes the lower-cased variant
identifier "python", but FromStr accepts only the include_langs!
literal "py" for Python, so resolving the display name errors (the
repository's own test to_str_reflects_from_str asserts exactly this
round trip and fails).  The theorem evaluates the code at the failing
input. -/
theorem language_roundtrip_fails_on_python :
    Language.display Language.Python = "python"
    ∧ (Language.from_str "python").isOk = false
    ∧ Language.from_str "py" = Except.ok Language.Python := by
  refine ⟨rfl, ?_, rfl⟩
  decide

/-- C9: show_languages is a TODO stub: invoking the program with the
languages flag writes no bytes at all, although the registry knows eight
languages — the known language names are not written to the output. -/
theorem show_languages_writes_no_names :
    show_languages_output = [] ∧ Language.all.length = 8 := ⟨rfl, rfl⟩

/-- C10: context-flag resolution: a present specific flag (-A or -B)
wins over -C for its side; -C is used for a side only when the specific
flag is absent; each side defaults to 0 when neither flag is given. -/
theorem context_flag_resolution :
    ∀ a b c : Nat,
      (after_lines (some a) (some c) = a ∧ before_lines (some b) (some c) = b)
      ∧ (after_lines (some a) none = a ∧ before_lines (some b) none = b)
      ∧ (after_lines none (some c) = c ∧ before_lines none (some c) = c)
      ∧ (after_lines none none = 0 ∧ before_lines none none = 0) := by
  intro a b c
  simp [after_lines, before_lines, Option.orElse]

/-- C6: positions are stored zero-indexed and presented one-indexed at
both output boundaries: the lines format prints each match's start
point incremented by one in both coordinates, and serialize_point emits
row and column fields incremented by one. -/
theorem positions_presented_one_indexed :
    (∀ f : ExtractedFile,
      f.display = f.«matches».flatMap
        (fun m => lineWithPoint f.filename (presentedPoint m.start) m.name m.text))
    ∧ (∀ p : Point,
        serialize_point p
          = [("row", (presentedPoint p).row), ("column", (presentedPoint p).column)]) := by
  constructor
  · intro f
    rfl
  · intro p
    rfl

/-! ## Lemmas about the disabling fold and Except-valued traversals -/

theorem disableFold_patterns (names : List String) (q : TSQuery) :
    (disableFold names q).patterns = q.patterns := by
  induction names generalizing q with
  | nil => rfl
  | cons n ns ih =>
    simp only [disableFold, List.foldl_cons] at *
    by_cases h : startsWithUnderscore n = true
    · rw [if_pos h, ih]
      rfl
    · rw [if_neg h, ih]

theorem disableFold_captureNames (names : List String) (q : TSQuery) :
    (disableFold names q).captureNames = q.captureNames := by
  induction names generalizing q with
  | nil => rfl
  | cons n ns ih =>
    simp only [disableFold, List.foldl_cons] at *
    by_cases h : startsWithUnderscore n = true
    · rw [if_pos h, ih]
      rfl
    · rw [if_neg h, ih]

theorem disableFold_disabled (names : List String) (q : TSQuery) :
    (disableFold names q).disabled
      = q.disabled ++ names.filter (fun n => startsWithUnderscore n) := by
  induction names generalizing q with
  | nil => simp [disableFold]
  | cons n ns ih =>
    simp only [disableFold, List.foldl_cons] at *
    by_cases h : startsWithUnderscore n = true
    · rw [if_pos h, ih]
      simp [TSQuery.disable_capture, List.filter_cons, h, List.append_assoc]
    · rw [if_neg h, ih]
      simp [List.filter_cons, h]

theorem mapM_ok_forward {E α β : Type} (f : α → Except E β) :
    ∀ (xs : List α) (ys : List β), xs.mapM f = .ok ys →
      ∀ x ∈ xs, ∃ y ∈ ys, f x = .ok y := by
  intro xs
  induction xs with
  | nil => intro ys _ x hx; simp at hx
  | cons a as ih =>
    intro ys h x hx
    rw [List.mapM_cons] at h
    cases hfa : f a with
    | error e => rw [hfa] at h; simp [Bind.bind, Except.bind] at h
    | ok b =>
      rw [hfa] at h
      cases hrest : as.mapM f with
      | error e =>
        rw [hrest] at h; simp [Bind.bind, Except.bind] at h
      | ok bs =>
        rw [hrest] at h
        simp only [Bind.bind, Except.bind, pure, Except.pure, Except.ok.injEq] at h
        subst h
        rcases List.mem_cons.mp hx with rfl | hx'
        · exact ⟨b, List.mem_cons_self _ _, hfa⟩
        · obtain ⟨y, hy, hfy⟩ := ih bs hrest x hx'
          exact ⟨y, List.mem_cons_of_mem _ hy, hfy⟩

theorem mapM_ok_backward {E α β : Type} (f : α → Except E β) :
    ∀ (xs : List α) (ys : List β), xs.mapM f = .ok ys →
      ∀ y ∈ ys, ∃ x ∈ xs, f x = .ok y := by
  intro xs
  induction xs with
  | nil =>
    intro ys h y hy
    simp only [List.mapM_nil, pure, Except.pure, Except.ok.injEq] at h
    subst h; simp at hy
  | cons a as ih =>
    intro ys h y hy
    rw [List.mapM_cons] at h
    cases hfa : f a with
    | error e => rw [hfa] at h; simp [Bind.bind, Except.bind] at h
    | ok b =>
      rw [hfa] at h
      cases hrest : as.mapM f with
      | error e =>
        rw [hrest] at h; simp [Bind.bind, Except.bind] at h
      | ok bs =>
        rw [hrest] at h
        simp only [Bind.bind, Except.bind, pure, Except.pure, Except.ok.injEq] at h
        subst h
        rcases List.mem_cons.mp hy with rfl | hy'
        · exact ⟨a, List.mem_cons_self _ _, hfa⟩
        · obtain ⟨x, hx, hfx⟩ := ih bs hrest y hy'
          exact ⟨x, List.mem_cons_of_mem _ hx, hfx⟩

theorem mapM_ok_length {E α β : Type} (f : α → Except E β) :
    ∀ (xs : List α) (ys : List β), xs.mapM f = .ok ys →
      ys.length = xs.length := by
  intro xs
  induction xs with
  | nil =>
    intro ys h
    simp only [List.mapM_nil, pure, Except.pure, Except.ok.injEq] at h
    subst h; rfl
  | cons a as ih =>
    intro ys h
    rw [List.mapM_cons] at h
    cases hfa : f a with
    | error e => rw [hfa] at h; simp [Bind.bind, Except.bind] at h
    | ok b =>
      rw [hfa] at h
      cases hrest : as.mapM f with
      | error e =>
        rw [hrest] at h; simp [Bind.bind, Except.bind] at h
      | ok bs =>
        rw [hrest] at h
        simp only [Bind.bind, Except.bind, pure, Except.pure, Except.ok.injEq] at h
        subst h
        simp [ih bs hrest]

theorem collectResults_mem {E F : Type} :
    ∀ (rs : List (Except E (Option F))) (fs : List F),
      collectResults rs = .ok fs → ∀ f ∈ fs, (Except.ok (some f)) ∈ rs := by
  intro rs
  induction rs with
  | nil =>
    intro fs h f hf
    simp only [collectResults, Except.ok.injEq] at h
    subst h; simp at hf
  | cons r rest ih =>
    intro fs h f hf
    match r with
    | .error e => simp [collectResults] at h
    | .ok none =>
      simp only [collectResults] at h
      exact List.mem_cons_of_mem _ (ih fs h f hf)
    | .ok (some g) =>
      simp only [collectResults] at h
      cases hrest : collectResults rest with
      | error e => rw [hrest] at h; simp [Except.map] at h
      | ok gs =>
        rw [hrest] at h
        simp only [Except.map, Except.ok.injEq] at h
        subst h
        rcases List.mem_cons.mp hf with rfl | hf'
        · exact List.mem_cons_self _ _
        · exact List.mem_cons_of_mem _ (ih gs hrest f hf')

/-- Inversion for extract_from_text succeeding with a file: the match
list is exactly the successful traversal of the surviving captures, and
it is nonempty. -/
theorem extract_ok_some_inv (ex : Extractor) (path : Option (List Nat))
    (raw : List Capture) (file : ExtractedFile)
    (h : ex.extract_from_text path raw = .ok (some file)) :
    (survivingCaptures ex.query raw).mapM (extractMatchOf ex.captures)
        = .ok file.«matches»
      ∧ file.«matches» ≠ [] := by
  unfold Extractor.extract_from_text at h
  cases hmm : (survivingCaptures ex.query raw).mapM (extractMatchOf ex.captures) with
  | error e => rw [hmm] at h; exact absurd h (by simp)
  | ok ms =>
    rw [hmm] at h
    by_cases hemp : ms.isEmpty
    · simp [hemp] at h
    · have hfile : file
          = { file := path
              file_type := strBytes ex.language.name_for_types_builder
              «matches» := ms } := by
        simp only [hemp, Bool.false_eq_true, if_false, Except.ok.injEq,
          Option.some.injEq] at h
        exact h.symm
      subst hfile
      constructor
      · rfl
      · simpa [List.isEmpty_iff] using hemp

/-- C2: helper-capture suppression.  For an Extractor built by
Extractor::new from a freshly compiled query (no captures disabled yet),
no extracted match ever carries a name starting with the underscore
helper marker, whatever captures the engine reports (underscore-named
captures may occur in the raw stream — they anchor matches — but are
disabled and so never reported). -/
theorem helper_captures_never_reported
    (lang : Language) (q : TSQuery) (path : Option (List Nat))
    (raw : List Capture) (file : ExtractedFile) (m : ExtractedMatch)
    (hdis : q.disabled = [])
    (hidx : ∀ c ∈ raw, c.index < q.captureNames.length)
    (hok : (Extractor.new lang q).extract_from_text path raw = .ok (some file))
    (hm : m ∈ file.«matches») :
    startsWithUnderscore m.name = false := by
  obtain ⟨hmapM, -⟩ := extract_ok_some_inv _ _ _ _ hok
  obtain ⟨c, hc, hextract⟩ := mapM_ok_backward _ _ _ hmapM m hm
  have hcaps : (Extractor.new lang q).captures = q.captureNames := rfl
  have hqn : (Extractor.new lang q).query.captureNames = q.captureNames := by
    simp [Extractor.new, disableFold_captureNames]
  have hqd : (Extractor.new lang q).query.disabled
      = q.captureNames.filter (fun n => startsWithUnderscore n) := by
    simp [Extractor.new, disableFold_disabled, hdis]
  -- name recorded in the match is the table entry at the capture's index
  have hname : m.name = q.captureNames.getD c.index "" := by
    unfold extractMatchOf at hextract
    by_cases hv : utf8Valid c.node.bytes
    · simp only [hv, if_true, Except.ok.injEq] at hextract
      rw [hcaps] at hextract
      cases hextract
      rfl
    · simp [hv] at hextract
  -- the capture survived the disabled-name filter
  have hsurv := hc
  unfold survivingCaptures at hsurv
  rw [List.mem_filter] at hsurv
  obtain ⟨hcraw, hkeep⟩ := hsurv
  rw [hqn, hqd] at hkeep
  -- suppose the name starts with an underscore
  by_contra hstart
  have hstart' : startsWithUnderscore m.name = true := by
    cases hb : startsWithUnderscore m.name
    · exact absurd hb hstart
    · rfl
  have hlt := hidx c hcraw
  have hmem : q.captureNames.getD c.index "" ∈ q.captureNames := by
    rw [List.getD_eq_getElem _ _ hlt]
    exact List.getElem_mem _
  rw [← hname] at hkeep
  simp at hkeep
  rcases hkeep with hnot | hfalse
  · apply hnot
    rw [hname]
    exact hmem
  · rw [hstart'] at hfalse
    exact absurd hfalse (by decide)

/-- C7: an invalid-UTF-8 surviving capture is a hard per-file failure:
extract_from_text returns an error for the whole file, and a successful
file is never partial — it contains one match per surviving capture. -/
theorem invalid_utf8_is_hard_failure
    (ex : Extractor) (path : Option (List Nat)) (raw : List Capture) :
    ((∃ c ∈ survivingCaptures ex.query raw, utf8Valid c.node.bytes = false) →
      (ex.extract_from_text path raw).isOk = false)
    ∧ (∀ file, ex.extract_from_text path raw = .ok (some file) →
        file.«matches».length = (survivingCaptures ex.query raw).length) := by
  constructor
  · rintro ⟨c, hc, hbad⟩
    unfold Extractor.extract_from_text
    cases hmm : (survivingCaptures ex.query raw).mapM (extractMatchOf ex.captures) with
    | error e => rfl
    | ok ms =>
      exfalso
      obtain ⟨y, -, hy⟩ := mapM_ok_forward _ _ _ hmm c hc
      unfold extractMatchOf at hy
      rw [hbad] at hy
      simp at hy
  · intro file hok
    obtain ⟨hmapM, -⟩ := extract_ok_some_inv _ _ _ _ hok
    exact mapM_ok_length _ _ _ hmapM

/-- C3: a file with zero surviving captures yields a successful none
(never an error, never an empty file record), a successful file record
always carries at least one match, and the collection step of do_query
passes only such nonempty records to the formatter. -/
theorem empty_extractions_produce_no_entry :
    (∀ (ex : Extractor) (path : Option (List Nat)) (raw : List Capture),
      survivingCaptures ex.query raw = [] →
      ex.extract_from_text path raw = .ok none)
    ∧ (∀ (ex : Extractor) (path : Option (List Nat)) (raw : List Capture)
          (file : ExtractedFile),
        ex.extract_from_text path raw = .ok (some file) → file.«matches» ≠ [])
    ∧ (∀ (jobs : List (Extractor × Option (List Nat) × List Capture))
          (fs : List ExtractedFile),
        collectResults (jobs.map (fun j => j.1.extract_from_text j.2.1 j.2.2))
            = .ok fs →
        ∀ f ∈ fs, f.«matches» ≠ []) := by
  refine ⟨?_, ?_, ?_⟩
  · intro ex path raw h
    unfold Extractor.extract_from_text
    rw [h]
    rfl
  · intro ex path raw file h
    exact (extract_ok_some_inv _ _ _ _ h).2
  · intro jobs fs h f hf
    have hmem := collectResults_mem _ _ h f hf
    rw [List.mem_map] at hmem
    obtain ⟨j, -, hj⟩ := hmem
    exact (extract_ok_some_inv _ _ _ _ hj).2

/-! ## Concrete witnesses for the extractor claims -/

/-- A freshly compiled query with a helper capture and a reported one. -/
def c2q : TSQuery := ⟨[], ["_fn", "call"], []⟩

/-- A node whose text is the single valid byte f. -/
def c2node : Node := ⟨"identifier", [102], ⟨0, 0⟩, ⟨0, 1⟩⟩

/-- A raw engine stream containing both the helper capture (index 0)
and the reported capture (index 1). -/
def c2raw : List Capture := [⟨0, c2node⟩, ⟨1, c2node⟩]

/-- The single reported match of the c2 scenario. -/
def c2match : ExtractedMatch := ⟨"identifier", "call", [102], ⟨0, 0⟩, ⟨0, 1⟩⟩

/-- The extracted file of the c2 scenario. -/
def c2file : ExtractedFile := ⟨none, strBytes "rust", [c2match]⟩

theorem helper_capture_suppression_witness :
    startsWithUnderscore c2match.name = false :=
  helper_captures_never_reported Language.Rust c2q none c2raw c2file c2match
    rfl
    (fun c hc => by
      rcases List.mem_pair.mp (by simpa [c2raw] using hc) with rfl | rfl <;> decide)
    (by decide)
    (by decide)

/-- An extractor over a one-capture query. -/
def c7ex : Extractor := Extractor.new Language.C ⟨[], ["x"], []⟩

/-- A raw stream whose only capture has invalid UTF-8 text (byte 255). -/
def c7raw : List Capture := [⟨0, ⟨"ident", [255], ⟨0, 0⟩, ⟨0, 1⟩⟩⟩]

theorem invalid_utf8_hard_failure_witness :
    (c7ex.extract_from_text none c7raw).isOk = false :=
  (invalid_utf8_is_hard_failure c7ex none c7raw).1
    ⟨⟨0, ⟨"ident", [255], ⟨0, 0⟩, ⟨0, 1⟩⟩⟩, by decide, by decide⟩

/-- An extractor over a one-capture query for the c3 scenario. -/
def c3ex : Extractor := Extractor.new Language.Go ⟨[], ["g"], []⟩

/-- A raw stream with one valid capture (byte h). -/
def c3raw : List Capture := [⟨0, ⟨"identifier", [104], ⟨2, 3⟩, ⟨2, 4⟩⟩⟩]

/-- The extracted file of the c3 scenario. -/
def c3file : ExtractedFile :=
  ⟨none, strBytes "go", [⟨"identifier", "g", [104], ⟨2, 3⟩, ⟨2, 4⟩⟩]⟩

theorem empty_extraction_witness :
    c3ex.extract_from_text none [] = .ok none ∧ c3file.«matches» ≠ [] :=
  ⟨empty_extractions_produce_no_entry.1 c3ex none [] rfl,
    empty_extractions_produce_no_entry.2.2 [(c3ex, none, c3raw)] [c3file]
      (by decide) c3file (by decide)⟩

/-! ## Line splitting and the json-lines / json correspondence (C8) -/

/-- Split a byte stream at newline bytes; n newlines give n + 1 pieces. -/
def splitOnNl : List Nat → List (List Nat)
  | [] => [[]]
  | b :: rest =>
    if b = 10 then [] :: splitOnNl rest
    else
      match splitOnNl rest with
      | [] => [[b]]
      | piece :: pieces => (b :: piece) :: pieces

/-- The lines of a newline-terminated stream: all split pieces except
the empty piece after the final newline. -/
def linesOf (bs : List Nat) : List (List Nat) := (splitOnNl bs).dropLast

/-- A byte list containing no newline byte. -/
def noNl (l : List Nat) : Prop := ∀ b ∈ l, b ≠ 10

theorem noNl_append {a b : List Nat} (ha : noNl a) (hb : noNl b) :
    noNl (a ++ b) := by
  intro x hx
  rcases List.mem_append.mp hx with h | h
  · exact ha x h
  · exact hb x h

theorem noNl_cons {n : Nat} {l : List Nat} (hn : n ≠ 10) (hl : noNl l) :
    noNl (n :: l) := by
  intro x hx
  rcases List.mem_cons.mp hx with rfl | h
  · exact hn
  · exact hl x h

theorem noNl_nil : noNl [] := by
  intro b hb
  simp at hb

theorem noNl_natBytesAux (fuel : Nat) :
    ∀ (n : Nat) (acc : List Nat), noNl acc → noNl (natBytesAux fuel n acc) := by
  induction fuel with
  | zero => intro n acc h; exact h
  | succ fuel ih =>
    intro n acc h
    unfold natBytesAux
    by_cases hn : n < 10
    · rw [if_pos hn]
      exact noNl_cons (by simp [digitByte]; omega) h
    · rw [if_neg hn]
      exact ih _ _ (noNl_cons (by simp [digitByte]; omega) h)

theorem noNl_natBytes (n : Nat) : noNl (natBytes n) :=
  noNl_natBytesAux _ _ _ (by intro b hb; simp at hb)

theorem noNl_escapeByte (b : Nat) : noNl (escapeByte b) := by
  intro x hx
  unfold escapeByte at hx
  split_ifs at hx <;> simp [digitByte] at hx <;> omega

theorem noNl_renderStrBytes (bs : List Nat) : noNl (renderStrBytes bs) := by
  unfold renderStrBytes
  apply noNl_cons (by omega)
  apply noNl_append
  · intro x hx
    rcases List.mem_flatMap.mp hx with ⟨b, -, hb⟩
    exact noNl_escapeByte b x hb
  · intro x hx; simp at hx; omega

theorem noNl_joinSep (sep : List Nat) (xs : List (List Nat))
    (hsep : noNl sep) (h : ∀ x ∈ xs, noNl x) : noNl (joinSep sep xs) := by
  induction xs with
  | nil => intro b hb; simp [joinSep] at hb
  | cons x xs ih =>
    cases xs with
    | nil => simpa [joinSep] using h x (by simp)
    | cons y rest =>
      have h1 : noNl x := h x (by simp)
      have h2 : ∀ z ∈ y :: rest, noNl z := fun z hz => h z (by simp [hz])
      show noNl (x ++ sep ++ joinSep sep (y :: rest))
      exact noNl_append (noNl_append h1 hsep) (ih h2)

theorem noNl_renderPoint (p : Point) : noNl (renderPoint p) := by
  unfold renderPoint renderPointFields serialize_point
  refine noNl_cons (by omega) (noNl_append ?_ (noNl_cons (by omega) noNl_nil))
  apply noNl_joinSep _ _ (noNl_cons (by omega) noNl_nil)
  intro x hx
  simp only [List.map_cons, List.map_nil, List.mem_cons,
    List.not_mem_nil, or_false] at hx
  rcases hx with rfl | rfl <;>
    exact noNl_append (noNl_renderStrBytes _) (noNl_cons (by omega) (noNl_natBytes _))

theorem noNl_append_iff {a b : List Nat} :
    noNl (a ++ b) ↔ noNl a ∧ noNl b := by
  unfold noNl
  exact List.forall_mem_append

theorem noNl_cons_iff {n : Nat} {l : List Nat} :
    noNl (n :: l) ↔ n ≠ 10 ∧ noNl l := by
  unfold noNl
  exact List.forall_mem_cons

theorem noNl_renderMatch (m : ExtractedMatch) : noNl (renderMatch m) := by
  unfold renderMatch
  simp only [noNl_append_iff, noNl_cons_iff, noNl_renderStrBytes,
    noNl_renderPoint, noNl_nil, and_true, true_and]
  omega

theorem noNl_renderFileField (f : ExtractedFile) :
    noNl (match f.file with
          | none => [110, 117, 108, 108]
          | some p => renderStrBytes p) := by
  cases f.file with
  | none => intro x hx; simp at hx; omega
  | some p => exact noNl_renderStrBytes p

theorem noNl_renderMatchArray (f : ExtractedFile) :
    noNl (joinSep [44] (f.«matches».map renderMatch)) := by
  apply noNl_joinSep _ _ (noNl_cons (by omega) noNl_nil)
  intro x hx
  rcases List.mem_map.mp hx with ⟨m, -, rfl⟩
  exact noNl_renderMatch m

theorem noNl_renderFile (f : ExtractedFile) : noNl (renderFile f) := by
  unfold renderFile
  simp only [noNl_append_iff, noNl_cons_iff, noNl_renderStrBytes,
    noNl_renderFileField, noNl_renderMatchArray, noNl_nil, and_true, true_and]
  omega

theorem splitOnNl_ne_nil (l : List Nat) : splitOnNl l ≠ [] := by
  cases l with
  | nil => simp [splitOnNl]
  | cons b rest =>
    by_cases hb : b = 10
    · simp [splitOnNl, hb]
    · cases hr : splitOnNl rest <;> simp [splitOnNl, hb, hr]

theorem splitOnNl_line (x rest : List Nat) (hx : noNl x) :
    splitOnNl (x ++ 10 :: rest) = x :: splitOnNl rest := by
  induction x with
  | nil => simp [splitOnNl]
  | cons b bs ih =>
    have hb : b ≠ 10 := hx b (by simp)
    have hx' : noNl bs := fun z hz => hx z (by simp [hz])
    have hrec := ih hx'
    simp only [List.cons_append, splitOnNl, if_neg hb]
    simp only [List.append_eq]
    rw [hrec]

/-- C8: the json-lines output, split line by line, is exactly the
sequence of per-file JSON records, and the json output is exactly the
JSON array of those same records, in the same order — so parsing the
json-lines output line by line yields precisely the elements of the
json array.  (Each record is a single line because every byte of a
rendered record differs from the newline byte, by JSON string
escaping.) -/
theorem json_lines_equals_json_array_elements (fs : List ExtractedFile) :
    linesOf (jsonLinesOutput fs) = fs.map renderFile
    ∧ jsonOutput fs = 91 :: joinSep [44] (fs.map renderFile) ++ [93] := by
  constructor
  · induction fs with
    | nil => rfl
    | cons f fs ih =>
      have hstep : jsonLinesOutput (f :: fs)
          = renderFile f ++ 10 :: jsonLinesOutput fs := by
        simp [jsonLinesOutput]
      unfold linesOf at *
      rw [hstep, splitOnNl_line _ _ (noNl_renderFile f),
        List.dropLast_cons_of_ne_nil (splitOnNl_ne_nil _), ih, List.map_cons]
  · rfl

/-! ## Lemmas about the query combiner (C4, C5) -/

theorem appendQueryCapture_backward :
    ∀ (qt : QueryText), ∀ p' ∈ appendQueryCapture qt,
      ∃ p ∈ qt, p'.node = p.node ∧ p'.preds = p.preds := by
  intro qt
  induction qt with
  | nil => intro p' hp'; simp [appendQueryCapture] at hp'
  | cons p rest ih =>
    cases rest with
    | nil =>
      intro p' hp'
      simp only [appendQueryCapture, List.mem_singleton] at hp'
      subst hp'
      exact ⟨p, by simp, rfl, rfl⟩
    | cons q rest2 =>
      intro p' hp'
      rcases List.mem_cons.mp hp' with rfl | h2
      · exact ⟨p', by simp, rfl, rfl⟩
      · obtain ⟨p0, hp0, hn, hpr⟩ := ih p' h2
        exact ⟨p0, List.mem_cons_of_mem _ hp0, hn, hpr⟩

theorem appendQueryCapture_forward :
    ∀ (qt : QueryText), ∀ p ∈ qt,
      ∃ p' ∈ appendQueryCapture qt, p'.node = p.node ∧ p'.preds = p.preds := by
  intro qt
  induction qt with
  | nil => intro p hp; simp at hp
  | cons x rest ih =>
    cases rest with
    | nil =>
      intro p hp
      simp only [List.mem_singleton] at hp
      subst hp
      exact ⟨{ p with captures := p.captures ++ ["query"] }, by simp [appendQueryCapture], rfl, rfl⟩
    | cons q rest2 =>
      intro p hp
      rcases List.mem_cons.mp hp with rfl | h2
      · exact ⟨p, by simp [appendQueryCapture], rfl, rfl⟩
      · obtain ⟨p', hp', hn, hpr⟩ := ih p h2
        exact ⟨p', by simp [appendQueryCapture]; right; simpa using hp', hn, hpr⟩

theorem appendQueryCapture_query_mem :
    ∀ (qt : QueryText), qt ≠ [] →
      ∃ p ∈ appendQueryCapture qt, "query" ∈ p.captures := by
  intro qt
  induction qt with
  | nil => intro h; exact absurd rfl h
  | cons p rest ih =>
    cases rest with
    | nil =>
      intro _
      exact ⟨{ p with captures := p.captures ++ ["query"] },
        by simp [appendQueryCapture], by simp⟩
    | cons q rest2 =>
      intro _
      obtain ⟨p', hp', hq⟩ := ih (by simp)
      exact ⟨p', by simp [appendQueryCapture]; right; simpa using hp', hq⟩

theorem insertMerge_backward :
    ∀ (m : List (Language × QueryText)) (lang : Language) (qt : QueryText),
      ∀ e ∈ insertMerge m lang qt, ∀ p ∈ e.2,
        (∃ e0 ∈ m, e0.1 = e.1 ∧ p ∈ e0.2) ∨ (e.1 = lang ∧ p ∈ qt) := by
  intro m
  induction m with
  | nil =>
    intro lang qt e he p hp
    simp only [insertMerge, List.mem_singleton] at he
    subst he
    exact Or.inr ⟨rfl, hp⟩
  | cons hd tl ih =>
    intro lang qt e he p hp
    obtain ⟨l, q⟩ := hd
    by_cases hl : l = lang
    · rw [insertMerge, if_pos hl] at he
      rcases List.mem_cons.mp he with rfl | he'
      · rcases List.mem_append.mp hp with h | h
        · exact Or.inl ⟨(l, q), by simp, rfl, h⟩
        · exact Or.inr ⟨hl, h⟩
      · exact Or.inl ⟨e, List.mem_cons_of_mem _ he', rfl, hp⟩
    · rw [insertMerge, if_neg hl] at he
      rcases List.mem_cons.mp he with rfl | he'
      · exact Or.inl ⟨(l, q), by simp, rfl, hp⟩
      · rcases ih lang qt e he' p hp with ⟨e0, he0, h1, h2⟩ | h
        · exact Or.inl ⟨e0, List.mem_cons_of_mem _ he0, h1, h2⟩
        · exact Or.inr h

theorem insertMerge_mono :
    ∀ (m : List (Language × QueryText)) (lang : Language) (qt : QueryText),
      ∀ e ∈ m, ∀ p ∈ e.2,
        ∃ e' ∈ insertMerge m lang qt, e'.1 = e.1 ∧ p ∈ e'.2 := by
  intro m
  induction m with
  | nil => intro lang qt e he; simp at he
  | cons hd tl ih =>
    intro lang qt e he p hp
    obtain ⟨l, q⟩ := hd
    by_cases hl : l = lang
    · rw [insertMerge, if_pos hl]
      rcases List.mem_cons.mp he with rfl | he'
      · exact ⟨(l, q ++ qt), by simp, rfl, List.mem_append_left _ hp⟩
      · exact ⟨e, List.mem_cons_of_mem _ he', rfl, hp⟩
    · rw [insertMerge, if_neg hl]
      rcases List.mem_cons.mp he with rfl | he'
      · exact ⟨(l, q), by simp, rfl, hp⟩
      · obtain ⟨e', he', h1, h2⟩ := ih lang qt e he' p hp
        exact ⟨e', List.mem_cons_of_mem _ he', h1, h2⟩

theorem insertMerge_new :
    ∀ (m : List (Language × QueryText)) (lang : Language) (qt : QueryText),
      ∀ p ∈ qt, ∃ e ∈ insertMerge m lang qt, e.1 = lang ∧ p ∈ e.2 := by
  intro m
  induction m with
  | nil =>
    intro lang qt p hp
    exact ⟨(lang, qt), by simp [insertMerge], rfl, hp⟩
  | cons hd tl ih =>
    intro lang qt p hp
    obtain ⟨l, q⟩ := hd
    by_cases hl : l = lang
    · rw [insertMerge, if_pos hl]
      exact ⟨(l, q ++ qt), by simp, hl, List.mem_append_right _ hp⟩
    · rw [insertMerge, if_neg hl]
      obtain ⟨e, he, h1, h2⟩ := ih lang qt p hp
      exact ⟨e, List.mem_cons_of_mem _ he, h1, h2⟩

theorem parse_query_ok_inv (nk : Language → List String) (lang : Language)
    (qt : QueryText) (q : TSQuery) (h : parse_query nk lang qt = .ok q) :
    q.patterns = qt ∧ q.captureNames = (qt.flatMap PatternSrc.captures).dedup
      ∧ q.disabled = [] := by
  unfold parse_query at h
  split_ifs at h
  · injection h with h'
    subst h'
    exact ⟨rfl, rfl, rfl⟩

theorem parse_query_ok (nk : Language → List String) (lang : Language)
    (qt : QueryText) (h : ∀ p ∈ qt, (nk lang).contains p.node = true) :
    parse_query nk lang qt
      = .ok ⟨qt, (qt.flatMap PatternSrc.captures).dedup, []⟩ := by
  unfold parse_query
  rw [if_pos]
  exact List.all_eq_true.mpr h

theorem buildQueryStrings_acc_mono (nk : Language → List String) :
    ∀ (pairs : List (String × QueryText)) (acc m' : List (Language × QueryText)),
      buildQueryStrings nk pairs acc = .ok m' →
      ∀ e ∈ acc, ∀ p ∈ e.2, ∃ e' ∈ m', e'.1 = e.1 ∧ p ∈ e'.2 := by
  intro pairs
  induction pairs with
  | nil =>
    intro acc m' h e he p hp
    simp only [buildQueryStrings, Except.ok.injEq] at h
    subst h
    exact ⟨e, he, rfl, hp⟩
  | cons pr rest ih =>
    intro acc m' h e he p hp
    obtain ⟨r, qt⟩ := pr
    unfold buildQueryStrings at h
    cases hfs : Language.from_str r with
    | error e0 => rw [hfs] at h; exact absurd h (by simp)
    | ok lang =>
      rw [hfs] at h
      dsimp only at h
      cases hpq : parse_query nk lang qt with
      | error e1 => rw [hpq] at h; exact absurd h (by simp)
      | ok temp =>
        rw [hpq] at h
        dsimp only at h
        obtain ⟨e', he', h1, h2⟩ := insertMerge_mono acc lang
          (if temp.captureNames.isEmpty then appendQueryCapture qt else qt) e he p hp
        obtain ⟨e'', he'', h3, h4⟩ := ih _ _ h e' he' p h2
        exact ⟨e'', he'', h3.trans h1, h4⟩

theorem buildQueryStrings_forward (nk : Language → List String) :
    ∀ (pairs : List (String × QueryText)) (acc m' : List (Language × QueryText)),
      buildQueryStrings nk pairs acc = .ok m' →
      ∀ pr ∈ pairs, ∀ lang, Language.from_str pr.1 = .ok lang →
        ∀ temp, parse_query nk lang pr.2 = .ok temp →
          ∀ p' ∈ (if temp.captureNames.isEmpty then appendQueryCapture pr.2 else pr.2),
            ∃ e ∈ m', e.1 = lang ∧ p' ∈ e.2 := by
  intro pairs
  induction pairs with
  | nil => intro acc m' h pr hpr; simp at hpr
  | cons hd rest ih =>
    intro acc m' h pr hpr lang hlang temp htemp p' hp'
    obtain ⟨r, qt⟩ := hd
    unfold buildQueryStrings at h
    cases hfs : Language.from_str r with
    | error e0 => rw [hfs] at h; exact absurd h (by simp)
    | ok lang0 =>
      rw [hfs] at h
      dsimp only at h
      cases hpq : parse_query nk lang0 qt with
      | error e1 => rw [hpq] at h; exact absurd h (by simp)
      | ok temp0 =>
        rw [hpq] at h
        dsimp only at h
        rcases List.mem_cons.mp hpr with rfl | hpr'
        · have hl0 : lang0 = lang := by
            have := hfs.symm.trans hlang
            injection this
          subst hl0
          have ht0 : temp0 = temp := by
            have := hpq.symm.trans htemp
            injection this
          subst ht0
          obtain ⟨e0, he0, h1, h2⟩ := insertMerge_new acc lang0
            (if temp0.captureNames.isEmpty then appendQueryCapture qt else qt) p' hp'
          obtain ⟨e, he, h3, h4⟩ := buildQueryStrings_acc_mono nk rest _ _ h e0 he0 p' h2
          exact ⟨e, he, h3.trans h1, h4⟩
        · exact ih _ _ h pr hpr' lang hlang temp htemp p' hp'

theorem buildQueryStrings_backward (nk : Language → List String) :
    ∀ (pairs : List (String × QueryText)) (acc m' : List (Language × QueryText)),
      buildQueryStrings nk pairs acc = .ok m' →
      ∀ e ∈ m', ∀ p' ∈ e.2,
        (∃ e0 ∈ acc, e0.1 = e.1 ∧ p' ∈ e0.2)
        ∨ ∃ pr ∈ pairs, Language.from_str pr.1 = .ok e.1
            ∧ ∃ p ∈ pr.2, p'.node = p.node ∧ p'.preds = p.preds := by
  intro pairs
  induction pairs with
  | nil =>
    intro acc m' h e he p' hp'
    simp only [buildQueryStrings, Except.ok.injEq] at h
    subst h
    exact Or.inl ⟨e, he, rfl, hp'⟩
  | cons hd rest ih =>
    intro acc m' h e he p' hp'
    obtain ⟨r, qt⟩ := hd
    unfold buildQueryStrings at h
    cases hfs : Language.from_str r with
    | error e0 => rw [hfs] at h; exact absurd h (by simp)
    | ok lang0 =>
      rw [hfs] at h
      dsimp only at h
      cases hpq : parse_query nk lang0 qt with
      | error e1 => rw [hpq] at h; exact absurd h (by simp)
      | ok temp0 =>
        rw [hpq] at h
        dsimp only at h
        rcases ih _ _ h e he p' hp' with ⟨e0, he0, h1, h2⟩ | ⟨pr, hpr, h1, h2⟩
        · rcases insertMerge_backward acc lang0 _ e0 he0 p' h2 with
            ⟨e1, he1, h3, h4⟩ | ⟨h3, h4⟩
          · exact Or.inl ⟨e1, he1, h3.trans h1, h4⟩
          · refine Or.inr ⟨(r, qt), by simp, ?_, ?_⟩
            · rw [← h1, h3]; exact hfs
            · by_cases hemp : temp0.captureNames.isEmpty
              · rw [if_pos hemp] at h4
                exact appendQueryCapture_backward qt p' h4
              · rw [if_neg hemp] at h4
                exact ⟨p', h4, rfl, rfl⟩
        · exact Or.inr ⟨pr, List.mem_cons_of_mem _ hpr, h1, h2⟩

theorem buildQueryStrings_ok (nk : Language → List String) :
    ∀ (pairs : List (String × QueryText)) (acc : List (Language × QueryText)),
      (∀ pr ∈ pairs, ∃ lang, Language.from_str pr.1 = .ok lang
        ∧ ∀ p ∈ pr.2, (nk lang).contains p.node = true) →
      ∃ m', buildQueryStrings nk pairs acc = .ok m' := by
  intro pairs
  induction pairs with
  | nil => intro acc _; exact ⟨acc, rfl⟩
  | cons hd rest ih =>
    intro acc hall
    obtain ⟨r, qt⟩ := hd
    obtain ⟨lang, hfs, hnodes⟩ := hall (r, qt) (by simp)
    have hrest : ∀ pr ∈ rest, ∃ lang, Language.from_str pr.1 = .ok lang
        ∧ ∀ p ∈ pr.2, (nk lang).contains p.node = true :=
      fun pr hpr => hall pr (List.mem_cons_of_mem _ hpr)
    obtain ⟨m', hm'⟩ := ih (insertMerge acc lang
      (if ((qt.flatMap PatternSrc.captures).dedup).isEmpty
        then appendQueryCapture qt else qt)) hrest
    refine ⟨m', ?_⟩
    unfold buildQueryStrings
    rw [hfs]
    dsimp only
    rw [parse_query_ok nk lang qt hnodes]
    exact hm'

theorem mapM_error {E α β : Type} (f : α → Except E β) :
    ∀ (xs : List α) (e : E), xs.mapM f = .error e →
      ∃ x ∈ xs, ∃ e', f x = .error e' := by
  intro xs
  induction xs with
  | nil =>
    intro e h
    rw [List.mapM_nil] at h
    exact absurd h (by simp [pure, Except.pure])
  | cons a as ih =>
    intro e h
    rw [List.mapM_cons] at h
    cases hfa : f a with
    | error e1 => exact ⟨a, by simp, e1, hfa⟩
    | ok b =>
      rw [hfa] at h
      cases hrest : as.mapM f with
      | error e2 =>
        obtain ⟨x, hx, e', hfx⟩ := ih e2 hrest
        exact ⟨x, List.mem_cons_of_mem _ hx, e', hfx⟩
      | ok bs =>
        rw [hrest] at h
        simp [Bind.bind, Except.bind, pure, Except.pure] at h

theorem first_general_predicate_none (q : TSQuery)
    (h : first_general_predicate q = none) :
    ∀ p ∈ q.patterns, p.preds = [] := by
  unfold first_general_predicate at h
  have hfind : q.patterns.find? (fun p => !p.preds.isEmpty) = none :=
    Option.map_eq_none'.mp h
  intro p hp
  have := List.find?_eq_none.mp hfind p hp
  simpa [List.isEmpty_iff] using this

/-- C5 (amended): provided every language name of the pair list
resolves, every query text is nonempty, and every pattern's node kind is
known to its language's grammar (so the per-pair and composite parses
succeed), the query combiner fails — and builds no Extractor — exactly
when some pattern of some query text carries an engine-level general
predicate.  Unknown language names, unparsable query texts, and the
empty zero-capture query text (whose appended synthetic capture token
makes the composite text unparsable) are separate configuration error
paths, excluded here by the hypotheses. -/
theorem predicate_rejection_iff (nk : Language → List String)
    (pairs : List (String × QueryText))
    (hne : ∀ pr ∈ pairs, pr.2 ≠ [])
    (hlang : ∀ pr ∈ pairs, ∃ lang, Language.from_str pr.1 = .ok lang
      ∧ ∀ p ∈ pr.2, (nk lang).contains p.node = true) :
    (extractors nk pairs).isOk = false
      ↔ ∃ pr ∈ pairs, ∃ p ∈ pr.2, p.preds ≠ [] := by
  obtain ⟨m', hm'⟩ := buildQueryStrings_ok nk pairs [] hlang
  constructor
  · intro herr
    unfold extractors at herr
    rw [hm'] at herr
    dsimp only at herr
    cases hmap : m'.mapM (fun lq =>
        match parse_query nk lq.1 lq.2 with
        | .error _ => (.error "could not parse combined query" : Except String Extractor)
        | .ok query =>
          match first_general_predicate query with
          | some op => .error ("Unknown predicate " ++ op)
          | none => .ok (Extractor.new lq.1 query)) with
    | ok exs =>
      rw [hmap] at herr
      simp [Except.isOk, Except.toBool] at herr
    | error e =>
      obtain ⟨lq, hlq, e', hstep⟩ := mapM_error _ _ _ hmap
      cases hpq : parse_query nk lq.1 lq.2 with
      | error e1 =>
        exfalso
        unfold parse_query at hpq
        split_ifs at hpq with hall
        have hbadp : ∃ p' ∈ lq.2, ¬ ((nk lq.1).contains p'.node = true) := by
          by_contra hc
          push_neg at hc
          exact hall (List.all_eq_true.mpr hc)
        obtain ⟨p', hp', hbad⟩ := hbadp
        rcases buildQueryStrings_backward nk pairs [] m' hm' lq hlq p' hp' with
          ⟨e0, he0, -, -⟩ | ⟨pr, hpr, hfs, p, hp, hnode, -⟩
        · simp at he0
        · obtain ⟨lang2, hfs2, hnodes2⟩ := hlang pr hpr
          have hl2 : lang2 = lq.1 := by
            have := hfs2.symm.trans hfs
            injection this
          subst hl2
          exact hbad (hnode ▸ hnodes2 p hp)
      | ok q =>
        rw [hpq] at hstep
        dsimp only at hstep
        cases hfp : first_general_predicate q with
        | none => rw [hfp] at hstep; exact absurd hstep (by simp)
        | some op =>
          have hqpat : q.patterns = lq.2 := (parse_query_ok_inv nk lq.1 lq.2 q hpq).1
          unfold first_general_predicate at hfp
          obtain ⟨p', hfind, -⟩ := Option.map_eq_some'.mp hfp
          have hp'mem : p' ∈ q.patterns := List.mem_of_find?_eq_some hfind
          have hp'pred : p'.preds ≠ [] := by
            have := List.find?_some hfind
            simpa [List.isEmpty_iff] using this
          rw [hqpat] at hp'mem
          rcases buildQueryStrings_backward nk pairs [] m' hm' lq hlq p' hp'mem with
            ⟨e0, he0, -, -⟩ | ⟨pr, hpr, -, p, hp, -, hpreds⟩
          · simp at he0
          · exact ⟨pr, hpr, p, hp, by rw [← hpreds]; exact hp'pred⟩
  · rintro ⟨pr, hpr, p, hp, hpred⟩
    obtain ⟨lang, hfs, hnodes⟩ := hlang pr hpr
    have htemp : parse_query nk lang pr.2
        = .ok ⟨pr.2, (pr.2.flatMap PatternSrc.captures).dedup, []⟩ :=
      parse_query_ok nk lang pr.2 hnodes
    have hpexists : ∃ p' ∈ (if (TSQuery.mk pr.2 ((pr.2.flatMap PatternSrc.captures).dedup)
          []).captureNames.isEmpty then appendQueryCapture pr.2 else pr.2),
        p'.preds = p.preds := by
      by_cases hemp : ((pr.2.flatMap PatternSrc.captures).dedup).isEmpty = true
      · rw [if_pos hemp]
        obtain ⟨p', hp', -, hpr'⟩ := appendQueryCapture_forward pr.2 p hp
        exact ⟨p', hp', hpr'⟩
      · rw [if_neg hemp]
        exact ⟨p, hp, rfl⟩
    obtain ⟨p', hp', hpreds⟩ := hpexists
    obtain ⟨e, he, hel, hpe⟩ :=
      buildQueryStrings_forward nk pairs [] m' hm' pr hpr lang hfs _ htemp p' hp'
    unfold extractors
    rw [hm']
    dsimp only
    cases hmap : m'.mapM (fun lq =>
        match parse_query nk lq.1 lq.2 with
        | .error _ => (.error "could not parse combined query" : Except String Extractor)
        | .ok query =>
          match first_general_predicate query with
          | some op => .error ("Unknown predicate " ++ op)
          | none => .ok (Extractor.new lq.1 query)) with
    | error e2 => rfl
    | ok exs =>
      exfalso
      obtain ⟨y, -, hstep⟩ := mapM_ok_forward _ _ _ hmap e he
      cases hpq : parse_query nk e.1 e.2 with
      | error e3 => rw [hpq] at hstep; exact absurd hstep (by simp)
      | ok q =>
        rw [hpq] at hstep
        dsimp only at hstep
        cases hfp : first_general_predicate q with
        | some op => rw [hfp] at hstep; exact absurd hstep (by simp)
        | none =>
          have hqpat := (parse_query_ok_inv nk e.1 e.2 q hpq).1
          have hall := first_general_predicate_none q hfp p' (by rw [hqpat]; exact hpe)
          rw [hall] at hpreds
          exact hpred hpreds.symm

/-- C4 (amended): a pair whose query text parses in isolation with zero
capture names has the synthetic query capture appended to its text
before merging; the capture attaches to the text's final pattern, so
whenever combining succeeds, the Extractor for that pair's language has
a pattern carrying the synthetic capture. -/
theorem synthetic_capture_appended (nk : Language → List String)
    (pairs : List (String × QueryText)) (r : String) (qt : QueryText)
    (lang : Language) (temp : TSQuery) (exs : List Extractor)
    (hmem : (r, qt) ∈ pairs)
    (hlang : Language.from_str r = .ok lang)
    (hparse : parse_query nk lang qt = .ok temp)
    (hempty : temp.captureNames = [])
    (hne : qt ≠ [])
    (hok : extractors nk pairs = .ok exs) :
    ∃ ex ∈ exs, ex.language = lang
      ∧ ∃ p ∈ ex.query.patterns, "query" ∈ p.captures := by
  unfold extractors at hok
  cases hm : buildQueryStrings nk pairs [] with
  | error e => rw [hm] at hok; exact absurd hok (by simp)
  | ok m' =>
    rw [hm] at hok
    dsimp only at hok
    obtain ⟨p', hp'm, hq⟩ := appendQueryCapture_query_mem qt hne
    have hp'if : p' ∈ (if temp.captureNames.isEmpty
        then appendQueryCapture qt else qt) := by
      rw [if_pos (by simp [hempty])]
      exact hp'm
    obtain ⟨e, he, hel, hpe⟩ :=
      buildQueryStrings_forward nk pairs [] m' hm (r, qt) hmem lang hlang temp hparse p' hp'if
    obtain ⟨ex, hex, hstep⟩ := mapM_ok_forward _ _ _ hok e he
    cases hpq : parse_query nk e.1 e.2 with
    | error e3 => rw [hpq] at hstep; exact absurd hstep (by simp)
    | ok q =>
      rw [hpq] at hstep
      dsimp only at hstep
      cases hfp : first_general_predicate q with
      | some op => rw [hfp] at hstep; exact absurd hstep (by simp)
      | none =>
        rw [hfp] at hstep
        have hex_eq : Extractor.new e.1 q = ex := by
          injection hstep
        subst hex_eq
        refine ⟨Extractor.new e.1 q, hex, hel, ?_⟩
        have hqp : q.patterns = e.2 := (parse_query_ok_inv nk e.1 e.2 q hpq).1
        have hpat : (Extractor.new e.1 q).query.patterns = q.patterns := by
          simp [Extractor.new, disableFold_patterns]
        rw [hpat, hqp]
        exact ⟨p', hpe, hq⟩

/-! ## Concrete inputs for the combiner claims -/

/-- A one-kind grammar table used by the predicate-claim inputs. -/
def c5nk : Language → List String := fun _ => ["id"]

/-- A pair list with an unknown language name and no predicates. -/
def c5pairs : List (String × QueryText) := [("klingon", [⟨"id", ["a"], []⟩])]

/-- C5 counterexample: the combiner errors on an unknown language name
even though no pattern anywhere carries a general predicate — so the
combiner erroring is not equivalent to a predicate being present. -/
theorem predicate_error_without_predicate :
    (extractors c5nk c5pairs).isOk = false
    ∧ c5pairs.all (fun pr => pr.2.all (fun p => p.preds.isEmpty)) = true := by
  constructor
  · decide
  · decide

/-- A pair list with a resolvable language and a general predicate. -/
def c5predpairs : List (String × QueryText) :=
  [("rust", [⟨"id", ["fn"], ["eq"]⟩])]

theorem predicate_rejection_witness :
    (extractors c5nk c5predpairs).isOk = false :=
  (predicate_rejection_iff c5nk c5predpairs
    (fun pr hpr => by
      rcases List.mem_singleton.mp hpr with rfl
      decide)
    (fun pr hpr => by
      rcases List.mem_singleton.mp hpr with rfl
      exact ⟨Language.Rust, rfl, by decide⟩)).mpr
    ⟨("rust", [⟨"id", ["fn"], ["eq"]⟩]), List.mem_cons_self _ _,
      ⟨"id", ["fn"], ["eq"]⟩, List.mem_cons_self _ _, by decide⟩

/-- A two-kind grammar table for the synthetic-capture inputs. -/
def c4nk : Language → List String := fun _ => ["one", "two"]

/-- A single pair whose two-pattern query text declares no captures. -/
def c4pairs : List (String × QueryText) :=
  [("rust", [⟨"one", [], []⟩, ⟨"two", [], []⟩])]

/-- The extractor list the combiner builds from c4pairs: the synthetic
capture lands on the final pattern only. -/
def c4exs : List Extractor :=
  [⟨.Rust, ⟨[⟨"one", [], []⟩, ⟨"two", ["query"], []⟩], ["query"], []⟩, ["query"]⟩]

/-- C4 counterexample: for a multi-pattern query text with zero
captures, the synthetic capture is appended to the text — but it
attaches only to the final pattern, so the built composite query still
contains a pattern declaring no capture at all. -/
theorem synthetic_capture_counterexample :
    extractors c4nk c4pairs = .ok c4exs
    ∧ (∃ pr ∈ c4pairs, pr.2.flatMap PatternSrc.captures = [])
    ∧ ∃ ex ∈ c4exs, ∃ p ∈ ex.query.patterns, p.captures = [] := by
  refine ⟨by decide,
    ⟨("rust", [⟨"one", [], []⟩, ⟨"two", [], []⟩]), List.mem_cons_self _ _, rfl⟩,
    ⟨⟨.Rust, ⟨[⟨"one", [], []⟩, ⟨"two", ["query"], []⟩], ["query"], []⟩, ["query"]⟩,
      List.mem_cons_self _ _, ⟨"one", [], []⟩, List.mem_cons_self _ _, rfl⟩⟩

/-- A one-kind grammar table for the synthetic-capture witness. -/
def c4wnk : Language → List String := fun _ => ["one"]

/-- One pair whose single-pattern query text declares no captures. -/
def c4wpairs : List (String × QueryText) := [("rust", [⟨"one", [], []⟩])]

/-- The extractor list the combiner builds from c4wpairs. -/
def c4wexs : List Extractor :=
  [⟨.Rust, ⟨[⟨"one", ["query"], []⟩], ["query"], []⟩, ["query"]⟩]

theorem synthetic_capture_witness :
    ∃ ex ∈ c4wexs, ex.language = Language.Rust
      ∧ ∃ p ∈ ex.query.patterns, "query" ∈ p.captures :=
  synthetic_capture_appended c4wnk c4wpairs "rust" [⟨"one", [], []⟩]
    Language.Rust ⟨[⟨"one", [], []⟩], [], []⟩ c4wexs
    (by decide) rfl (by decide) rfl (by decide) (by decide)

end TreeGrepper
